import Mathlib

/-!
Verification of the particle-life physics kernel (src/lib.rs).

The Rust source is shallowly embedded over the real numbers:
`f32` scalars become `ℝ`, `Vec2` becomes `ℝ × ℝ` with componentwise
arithmetic, `f32::round` (round half away from zero) becomes `roundAway`,
vector indexing that may panic becomes `Option`-valued lookup, and the
Bevy ECS queries become a `List Particle` threaded through the two
per-tick systems `update_velocity` and `update_position`.
-/

namespace ParticleLife

/-- 2D vector, modelling `bevy::Vec2`. -/
abbrev Vec2 : Type := ℝ × ℝ

/-- One particle, modelling the `Particle` bundle of `lib.rs`
(`Position`, `Velocity`, `ColorId`). -/
@[ext]
structure Particle where
  position : Vec2
  velocity : Vec2
  color : ℕ

/-- The simulation state: the spawned particles plus the two resources
`ColorAttractions` (the attraction matrix, entry `[i][j]` = how much
color `i` is attracted by color `j`) and `AttractionRadius`
(`rmin`, `rmax`). -/
structure SimState where
  particles : List Particle
  matrix : List (List ℝ)
  rmin : ℝ
  rmax : ℝ

/-- The `ParticleLifePlugin` struct: the externally supplied configuration
from which `build` creates the simulation state.  (The render-only fields
— display colors, meshes, materials — are host glue and are omitted.) -/
structure ParticleLifePlugin where
  initial_particles : List Particle
  color_attractions : List (List ℝ)
  rmin : ℝ
  rmax : ℝ

/-- Embedding of `ParticleLifePlugin::build` restricted to the simulation
state it creates: it spawns `initial_particles` and inserts the
`ColorAttractions` and `AttractionRadius` resources unconditionally.
The Rust function performs no validation of any kind and has no failure
path, so the embedding is a total function. -/
def ParticleLifePlugin.build (p : ParticleLifePlugin) : SimState :=
  { particles := p.initial_particles
    matrix := p.color_attractions
    rmin := p.rmin
    rmax := p.rmax }

/-- Rust's `f32::round`: round to the nearest integer, halfway cases away
from zero. -/
noncomputable def roundAway (q : ℝ) : ℤ :=
  if 0 ≤ q then ⌊q + 1 / 2⌋ else ⌈q - 1 / 2⌉

/-- The scalar wrap used by `update_position`:
`x - 2.0 * f32::round(x / 2.0)`. -/
noncomputable def wrap (x : ℝ) : ℝ :=
  x - 2 * roundAway (x / 2)

/-- Embedding of `toroidal_difference`: `tip - base` componentwise, then
each component whose absolute value exceeds `1.0` has `2.0` subtracted. -/
noncomputable def toroidal_difference (base tip : Vec2) : Vec2 :=
  let dx : ℝ := tip.1 - base.1
  let dy : ℝ := tip.2 - base.2
  (if 1 < |dx| then dx - 2 else dx, if 1 < |dy| then dy - 2 else dy)

/-- Euclidean length of a 2D vector (`Vec2::length`). -/
noncomputable def length (v : Vec2) : ℝ :=
  Real.sqrt (v.1 * v.1 + v.2 * v.2)

/-- Embedding of `toroidal_distance`: length of the toroidal difference. -/
noncomputable def toroidal_distance (a b : Vec2) : ℝ :=
  length (toroidal_difference a b)

/-- Embedding of `Vec2::try_normalize`: `none` when the vector cannot be
normalized (zero length, i.e. the zero vector over `ℝ`), otherwise the
vector scaled by the reciprocal of its length. -/
noncomputable def tryNormalize (v : Vec2) : Option Vec2 :=
  if v = (0, 0) then none else some ((length v)⁻¹ • v)

/-- Double indexing `m[i][j]` into the attraction matrix; Rust panics on
an out-of-bounds index, embedded as `none`. -/
def lookup2 (m : List (List ℝ)) (i j : ℕ) : Option ℝ :=
  m[i]?.bind fun row => row[j]?

/-- Embedding of `attraction_factor`.  Returns the pair
(attraction of A by B, attraction of B by A); `none` models the panic on
an out-of-bounds matrix index in the middle branch. -/
noncomputable def attraction_factor (distance : ℝ) (color_a color_b : ℕ)
    (color_attractions : List (List ℝ)) (rmin rmax : ℝ) : Option (ℝ × ℝ) :=
  if distance ≤ rmin then
    some (distance / rmin - 1, distance / rmin - 1)
  else if distance ≤ rmax then
    match lookup2 color_attractions color_a color_b,
        lookup2 color_attractions color_b color_a with
    | some peak_ab, some peak_ba =>
      some (|distance - (rmin + rmax) / 2| * peak_ab,
        |distance - (rmin + rmax) / 2| * peak_ba)
    | _, _ => none
  else
    some (0, 0)

/-- The attraction matrix is square: every row is as long as the list of
rows. -/
def isSquare (m : List (List ℝ)) : Prop :=
  ∀ row ∈ m, row.length = m.length

/-- Well-formed configuration: square matrix, every particle's color class
indexes it, and `0 < rmin < rmax`. -/
def wellFormed (s : SimState) : Prop :=
  isSquare s.matrix ∧ (∀ p ∈ s.particles, p.color < s.matrix.length) ∧
    0 < s.rmin ∧ s.rmin < s.rmax

/-- The velocity and direction computation of one iteration of the pair
loop in `update_velocity`, for particles `a` and `b`: the clamped
toroidal distance, the attraction factors, the normalized direction from
`a` to `b` with fallback `(1, 0)`, and the two velocity increments
`delta * attraction_a_by_b * dir` and `delta * attraction_b_by_a * dir`.
Returns `none` exactly when `attraction_factor` panics. -/
noncomputable def pairKick (m : List (List ℝ)) (rmin rmax dt : ℝ)
    (a b : Particle) : Option (Vec2 × Vec2) :=
  let d : ℝ := max (toroidal_distance a.position b.position) (1 / 100)
  (attraction_factor d a.color b.color m rmin rmax).map fun f =>
    let dir : Vec2 := (tryNormalize (toroidal_difference a.position b.position)).getD (1, 0)
    ((dt * f.1) • dir, (dt * f.2) • dir)

/-- One iteration of the `iter_combinations_mut` loop of
`update_velocity` on the pair of indices `ij`: reads particles `ij.1`
and `ij.2`, adds the kick to the first one's velocity and subtracts the
second kick from the second one's velocity.  (The loop's
`entity_a == entity_b` guard is dead code: `iter_combinations` never
yields a particle paired with itself, and no self pair is ever passed to
this step.) -/
noncomputable def pairStep (m : List (List ℝ)) (rmin rmax dt : ℝ)
    (ps : List Particle) (ij : ℕ × ℕ) : Option (List Particle) :=
  ps[ij.1]?.bind fun a => ps[ij.2]?.bind fun b =>
    (pairKick m rmin rmax dt a b).map fun k =>
      (ps.set ij.1 { a with velocity := a.velocity + k.1 }).set ij.2
        { b with velocity := b.velocity - k.2 }

/-- The index pairs visited by `iter_combinations_mut` over `n`
particles, in iteration order: every `(i, j)` with `i < j < n`. -/
def pairsList (n : ℕ) : List (ℕ × ℕ) :=
  (List.range n).flatMap fun i =>
    ((List.range n).filter fun j => i < j).map fun j => (i, j)

/-- Embedding of the `update_velocity` system: fold the pair step over
every unordered pair of distinct particles. -/
noncomputable def update_velocity (dt : ℝ) (s : SimState) : Option SimState :=
  (List.foldlM (pairStep s.matrix s.rmin s.rmax dt) s.particles
      (pairsList s.particles.length)).map
    fun ps => { s with particles := ps }

/-- Embedding of the `update_position` system: for each particle,
`position += delta * velocity`, then wrap both components. -/
noncomputable def update_position (dt : ℝ) (ps : List Particle) : List Particle :=
  ps.map fun p =>
    { p with position :=
        (wrap (p.position.1 + dt * p.velocity.1),
         wrap (p.position.2 + dt * p.velocity.2)) }

/-- One full advance step as claimed by the spec: the velocity pass
followed by the position pass. -/
noncomputable def advance (dt : ℝ) (s : SimState) : Option SimState :=
  (update_velocity dt s).map fun s' =>
    { s' with particles := update_position dt s'.particles }

/-- The velocity increment the pair `ij` contributes to the velocity of
particle `k`, computed from the particle list `ps` (the snapshot of
positions and colors): `+kick₁` when `k` is the first of the pair,
`-kick₂` when it is the second, `0` otherwise. -/
noncomputable def contrib (m : List (List ℝ)) (rmin rmax dt : ℝ)
    (ps : List Particle) (k : ℕ) (ij : ℕ × ℕ) : Vec2 :=
  (ps[ij.1]?.bind fun a => ps[ij.2]?.bind fun b =>
    (pairKick m rmin rmax dt a b).map fun kk =>
      (if k = ij.1 then kk.1 else 0) - (if k = ij.2 then kk.2 else 0)).getD 0

/-- The matrix entry `m[i][j]` as a total function (meaningful when the
indices are in bounds). -/
def mEntry (m : List (List ℝ)) (i j : ℕ) : ℝ :=
  (m.getD i []).getD j 0

/-- Two particle lists have the same length and pointwise equal positions
and colors (they may differ only in velocities). -/
def sameShape (ps ps' : List Particle) : Prop :=
  ps'.length = ps.length ∧
    ∀ k : ℕ, (ps'[k]?.map fun p => (p.position, p.color)) =
      (ps[k]?.map fun p => (p.position, p.color))

/-- A deliberately misconfigured plugin: non-square attraction matrix, a
particle whose color class is out of range, and `rmin = rmax = 0`. -/
noncomputable def badPlugin : ParticleLifePlugin :=
  { initial_particles := [{ position := (0, 0), velocity := (0, 0), color := 7 }]
    color_attractions := [[0], [0, 0]]
    rmin := 0
    rmax := 0 }

/-- A well-formed one-particle state used as a concrete input: the
particle sits at the origin with velocity `(-1, 0)`. -/
noncomputable def probe1 : SimState :=
  { particles := [{ position := (0, 0), velocity := (-1, 0), color := 0 }]
    matrix := [[0]]
    rmin := 1
    rmax := 2 }

/-- A well-formed two-particle state used as a concrete input: both
particles sit at the origin (coincident pair). -/
noncomputable def probe2 : SimState :=
  { particles :=
      [{ position := (0, 0), velocity := (0, 0), color := 0 },
       { position := (0, 0), velocity := (0, 0), color := 0 }]
    matrix := [[0]]
    rmin := 1
    rmax := 2 }

/-! Basic facts about `wrap`. -/

lemma roundAway_half_dist (q : ℝ) : |q - roundAway q| ≤ 1 / 2 := by
  unfold roundAway
  split
  · have h1 : (⌊q + 1 / 2⌋ : ℝ) ≤ q + 1 / 2 := Int.floor_le _
    have h2 : q + 1 / 2 < (⌊q + 1 / 2⌋ : ℝ) + 1 := Int.lt_floor_add_one _
    rw [abs_le]
    constructor <;> linarith
  · have h1 : q - 1 / 2 ≤ (⌈q - 1 / 2⌉ : ℝ) := Int.le_ceil _
    have h2 : (⌈q - 1 / 2⌉ : ℝ) < q - 1 / 2 + 1 := Int.ceil_lt_add_one _
    rw [abs_le]
    constructor <;> linarith

lemma wrap_mem_Icc (x : ℝ) : wrap x ∈ Set.Icc (-1 : ℝ) 1 := by
  have h := roundAway_half_dist (x / 2)
  rw [abs_le] at h
  unfold wrap
  constructor <;> [skip; skip] <;>
  · obtain ⟨h1, h2⟩ := h
    linarith

/-- If `wrap x` hits an endpoint of the interval, `x` is an odd integer. -/
lemma odd_int_of_wrap_endpoint (x : ℝ) :
    (wrap x = 1 ∨ wrap x = -1) → ∃ k : ℤ, x = 2 * k + 1 := by
  intro hx
  rcases hx with h | h
  · refine ⟨roundAway (x / 2), ?_⟩
    unfold wrap at h
    linarith
  · refine ⟨roundAway (x / 2) - 1, ?_⟩
    unfold wrap at h
    push_cast
    linarith

lemma wrap_eq_self_of_mem_Ioo {y : ℝ} (hy : y ∈ Set.Ioo (-1 : ℝ) 1) :
    wrap y = y := by
  obtain ⟨h1, h2⟩ := hy
  have hz : roundAway (y / 2) = 0 := by
    unfold roundAway
    split
    · rw [Int.floor_eq_iff]
      push_cast
      constructor <;> linarith
    · rw [Int.ceil_eq_iff]
      push_cast
      constructor <;> linarith
  unfold wrap
  rw [hz]
  push_cast
  ring

lemma wrap_mem_Ioo_of_not_odd {x : ℝ} (h : ∀ k : ℤ, x ≠ 2 * k + 1) :
    wrap x ∈ Set.Ioo (-1 : ℝ) 1 := by
  have hIcc := wrap_mem_Icc x
  obtain ⟨h1, h2⟩ := hIcc
  constructor
  · rcases lt_or_eq_of_le h1 with h' | h'
    · exact h'
    · exfalso
      obtain ⟨k, hk⟩ := odd_int_of_wrap_endpoint x (Or.inr h'.symm)
      exact h k hk
  · rcases lt_or_eq_of_le h2 with h' | h'
    · exact h'
    · exfalso
      obtain ⟨k, hk⟩ := odd_int_of_wrap_endpoint x (Or.inl h')
      exact h k hk

/-! Concrete evaluations of `wrap` at the interval endpoints. -/

lemma roundAway_neg_half : roundAway (-(1 / 2) : ℝ) = -1 := by
  unfold roundAway
  rw [if_neg (by norm_num)]
  rw [Int.ceil_eq_iff]
  push_cast
  norm_num

lemma roundAway_pos_half : roundAway ((1 / 2) : ℝ) = 1 := by
  unfold roundAway
  rw [if_pos (by norm_num)]
  rw [Int.floor_eq_iff]
  push_cast
  norm_num

lemma wrap_neg_one : wrap (-1 : ℝ) = 1 := by
  unfold wrap
  have : (-1 : ℝ) / 2 = -(1 / 2) := by norm_num
  rw [this, roundAway_neg_half]
  push_cast
  ring

lemma wrap_one : wrap (1 : ℝ) = -1 := by
  unfold wrap
  have : (1 : ℝ) / 2 = (1 / 2 : ℝ) := by norm_num
  rw [this, roundAway_pos_half]
  push_cast
  ring

lemma wrap_zero : wrap (0 : ℝ) = 0 := by
  unfold wrap roundAway
  rw [if_pos (by norm_num)]
  have : ⌊(0 : ℝ) / 2 + 1 / 2⌋ = 0 := by
    rw [Int.floor_eq_iff]
    push_cast
    norm_num
  rw [this]
  push_cast
  ring

/-! Totality of the matrix lookups and the attraction model over
well-formed configuration. -/

lemma lookup2_eq_mEntry {m : List (List ℝ)} {i j : ℕ} (hsq : isSquare m)
    (hi : i < m.length) (hj : j < m.length) :
    lookup2 m i j = some (mEntry m i j) := by
  have hrow : m[i]? = some m[i] := List.getElem?_eq_getElem hi
  have hlen : m[i].length = m.length := hsq _ (List.getElem_mem hi)
  have hj' : j < m[i].length := by rw [hlen]; exact hj
  have hent : m[i][j]? = some m[i][j] := List.getElem?_eq_getElem hj'
  unfold lookup2 mEntry
  rw [hrow, Option.some_bind, hent]
  have h1 : m.getD i [] = m[i] := by
    rw [List.getD_eq_getElem?_getD, hrow]
    rfl
  rw [h1, List.getD_eq_getElem?_getD, hent]
  rfl

lemma attraction_factor_isSome {m : List (List ℝ)} {ca cb : ℕ}
    (hsq : isSquare m) (ha : ca < m.length) (hb : cb < m.length)
    (d rmin rmax : ℝ) :
    (attraction_factor d ca cb m rmin rmax).isSome := by
  unfold attraction_factor
  split
  · rfl
  · split
    · rw [lookup2_eq_mEntry hsq ha hb, lookup2_eq_mEntry hsq hb ha]
      rfl
    · rfl

lemma pairKick_isSome {m : List (List ℝ)} (rmin rmax dt : ℝ)
    {a b : Particle} (hsq : isSquare m) (ha : a.color < m.length)
    (hb : b.color < m.length) :
    (pairKick m rmin rmax dt a b).isSome := by
  unfold pairKick
  rw [Option.isSome_map']
  exact attraction_factor_isSome hsq ha hb _ _ _

lemma pairKick_congr (m : List (List ℝ)) (rmin rmax dt : ℝ)
    {a b a' b' : Particle} (hpa : a'.position = a.position)
    (hca : a'.color = a.color) (hpb : b'.position = b.position)
    (hcb : b'.color = b.color) :
    pairKick m rmin rmax dt a' b' = pairKick m rmin rmax dt a b := by
  unfold pairKick
  rw [hpa, hca, hpb, hcb]

lemma pairKick_zero_dt {m : List (List ℝ)} {rmin rmax : ℝ}
    {a b : Particle} {kk : Vec2 × Vec2}
    (h : pairKick m rmin rmax 0 a b = some kk) : kk = (0, 0) := by
  unfold pairKick at h
  rw [Option.map_eq_some'] at h
  obtain ⟨f, _, hf⟩ := h
  rw [← hf]
  norm_num

lemma contrib_congr {m : List (List ℝ)} {rmin rmax dt : ℝ}
    {ps ps₁ : List Particle} (h : sameShape ps ps₁) (k : ℕ) (ij : ℕ × ℕ) :
    contrib m rmin rmax dt ps₁ k ij = contrib m rmin rmax dt ps k ij := by
  have h1 := h.2 ij.1
  have h2 := h.2 ij.2
  cases hA : ps[ij.1]? with
  | none =>
    have hA1 : ps₁[ij.1]? = none := by
      rw [hA, Option.map_none'] at h1
      exact Option.map_eq_none'.mp h1
    simp only [contrib, hA, hA1, Option.none_bind]
  | some a =>
    rw [hA, Option.map_some'] at h1
    obtain ⟨a₁, ha₁, ha₁eq⟩ := Option.map_eq_some'.mp h1
    rw [Prod.mk.injEq] at ha₁eq
    cases hB : ps[ij.2]? with
    | none =>
      have hB1 : ps₁[ij.2]? = none := by
        rw [hB, Option.map_none'] at h2
        exact Option.map_eq_none'.mp h2
      simp only [contrib, hA, ha₁, hB, hB1, Option.some_bind, Option.none_bind]
    | some b =>
      rw [hB, Option.map_some'] at h2
      obtain ⟨b₁, hb₁, hb₁eq⟩ := Option.map_eq_some'.mp h2
      rw [Prod.mk.injEq] at hb₁eq
      simp only [contrib, hA, ha₁, hB, hb₁, Option.some_bind]
      rw [pairKick_congr m rmin rmax dt ha₁eq.1 ha₁eq.2 hb₁eq.1 hb₁eq.2]

lemma foldlM_pairStep_char (m : List (List ℝ)) (rmin rmax dt : ℝ)
    (hsq : isSquare m) :
    ∀ (L : List (ℕ × ℕ)) (ps : List Particle),
      (∀ p ∈ ps, p.color < m.length) →
      (∀ ij ∈ L, ij.1 < ps.length ∧ ij.2 < ps.length ∧ ij.1 ≠ ij.2) →
      ∃ ps', List.foldlM (pairStep m rmin rmax dt) ps L = some ps' ∧
        ps'.length = ps.length ∧
        ∀ k : ℕ, ps'[k]? = ps[k]?.map fun p =>
          { p with velocity :=
              p.velocity + (L.map (contrib m rmin rmax dt ps k)).sum } := by
  intro L
  induction L with
  | nil =>
    intro ps _ _
    refine ⟨ps, List.foldlM_nil _ _, rfl, ?_⟩
    intro k
    cases ps[k]? with
    | none => rfl
    | some p => simp
  | cons ij T ih =>
    intro ps hcol hL
    obtain ⟨hi, hj, hne⟩ := hL ij (List.mem_cons_self ij T)
    have hA : ps[ij.1]? = some ps[ij.1] := List.getElem?_eq_getElem hi
    have hB : ps[ij.2]? = some ps[ij.2] := List.getElem?_eq_getElem hj
    set a := ps[ij.1] with ha_def
    set b := ps[ij.2] with hb_def
    have hacol : a.color < m.length := hcol a (List.getElem_mem hi)
    have hbcol : b.color < m.length := hcol b (List.getElem_mem hj)
    obtain ⟨kk, hkk⟩ :=
      Option.isSome_iff_exists.mp (pairKick_isSome rmin rmax dt hsq hacol hbcol)
    set a' : Particle := { a with velocity := a.velocity + kk.1 } with ha'
    set b' : Particle := { b with velocity := b.velocity - kk.2 } with hb'
    set ps₁ : List Particle := (ps.set ij.1 a').set ij.2 b' with hps₁
    have hstep : pairStep m rmin rmax dt ps ij = some ps₁ := by
      simp only [pairStep, hA, hB, hkk, Option.some_bind, Option.map_some']
    have hlen₁ : ps₁.length = ps.length := by
      rw [hps₁, List.length_set, List.length_set]
    have hget₁ : ∀ k : ℕ, ps₁[k]? =
        if k = ij.1 then some a' else if k = ij.2 then some b' else ps[k]? := by
      intro k
      rw [hps₁]
      by_cases hk2 : k = ij.2
      · subst hk2
        rw [if_neg (fun h => hne h.symm), if_pos rfl]
        exact List.getElem?_set_self (by rw [List.length_set]; exact hj)
      · rw [List.getElem?_set_ne (fun h => hk2 h.symm)]
        by_cases hk1 : k = ij.1
        · subst hk1
          rw [if_pos rfl]
          exact List.getElem?_set_self hi
        · rw [List.getElem?_set_ne (fun h => hk1 h.symm), if_neg hk1, if_neg hk2]
    have hshape : sameShape ps ps₁ := by
      refine ⟨hlen₁, ?_⟩
      intro k
      rw [hget₁ k]
      by_cases hk1 : k = ij.1
      · subst hk1
        rw [if_pos rfl, hA]
        rfl
      · rw [if_neg hk1]
        by_cases hk2 : k = ij.2
        · subst hk2
          rw [if_pos rfl, hB]
          rfl
        · rw [if_neg hk2]
    have hcol₁ : ∀ p ∈ ps₁, p.color < m.length := by
      intro p hp
      rw [hps₁] at hp
      rcases List.mem_or_eq_of_mem_set hp with hp' | hp'
      · rcases List.mem_or_eq_of_mem_set hp' with hp'' | hp''
        · exact hcol p hp''
        · rw [hp'', ha']
          exact hacol
      · rw [hp', hb']
        exact hbcol
    have hT : ∀ ij' ∈ T, ij'.1 < ps₁.length ∧ ij'.2 < ps₁.length ∧
        ij'.1 ≠ ij'.2 := by
      intro ij' hij'
      have := hL ij' (List.mem_cons_of_mem _ hij')
      rw [hlen₁]
      exact this
    obtain ⟨ps₂, hfold, hlen₂, hchar⟩ := ih ps₁ hcol₁ hT
    refine ⟨ps₂, ?_, by rw [hlen₂, hlen₁], ?_⟩
    · rw [List.foldlM_cons, hstep]
      exact hfold
    · intro k
      have hc : contrib m rmin rmax dt ps k ij =
          (if k = ij.1 then kk.1 else 0) - (if k = ij.2 then kk.2 else 0) := by
        simp only [contrib, hA, hB, hkk, Option.some_bind, Option.map_some',
          Option.getD_some]
      have hcT : (T.map (contrib m rmin rmax dt ps₁ k)).sum =
          (T.map (contrib m rmin rmax dt ps k)).sum := by
        congr 1
        exact List.map_congr_left fun ij' _ => contrib_congr hshape k ij'
      rw [hchar k, hget₁ k, List.map_cons, List.sum_cons, hc]
      by_cases hk1 : k = ij.1
      · subst hk1
        rw [if_pos rfl, hA, if_pos rfl, if_neg hne, hcT]
        simp only [Option.map_some', Option.some.injEq]
        refine Particle.ext rfl ?_ rfl
        dsimp only
        abel
      · rw [if_neg hk1]
        by_cases hk2 : k = ij.2
        · subst hk2
          rw [if_pos rfl, hB, if_neg (fun h => hne h.symm), if_pos rfl, hcT]
          simp only [Option.map_some', Option.some.injEq]
          refine Particle.ext rfl ?_ rfl
          dsimp only
          abel
        · rw [if_neg hk2, if_neg hk1, if_neg hk2, hcT]
          cases ps[k]? with
          | none => rfl
          | some p =>
            simp only [Option.map_some', Option.some.injEq]
            refine Particle.ext rfl ?_ rfl
            show p.velocity + (T.map (contrib m rmin rmax dt ps k)).sum =
              p.velocity + (0 - 0 + (T.map (contrib m rmin rmax dt ps k)).sum)
            abel

lemma mem_pairsList {n : ℕ} {ij : ℕ × ℕ} :
    ij ∈ pairsList n ↔ ij.1 < ij.2 ∧ ij.2 < n := by
  unfold pairsList
  rw [List.mem_flatMap]
  constructor
  · rintro ⟨i, hi, hmem⟩
    rw [List.mem_map] at hmem
    obtain ⟨j, hj, hji⟩ := hmem
    rw [List.mem_filter, List.mem_range] at hj
    rw [← hji]
    exact ⟨of_decide_eq_true hj.2, hj.1⟩
  · rintro ⟨h1, h2⟩
    refine ⟨ij.1, List.mem_range.mpr (lt_trans h1 h2), ?_⟩
    rw [List.mem_map]
    refine ⟨ij.2, ?_, rfl⟩
    rw [List.mem_filter, List.mem_range]
    exact ⟨h2, decide_eq_true h1⟩

lemma pairsList_nodup (n : ℕ) : (pairsList n).Nodup := by
  unfold pairsList
  rw [List.nodup_flatMap]
  constructor
  · intro i _
    refine ((List.nodup_range n).filter _).map ?_
    intro x y hxy
    exact ((Prod.mk.injEq _ _ _ _).mp hxy).2
  · refine (List.pairwise_lt_range n).imp ?_
    intro i1 i2 hlt x hx1 hx2
    rw [List.mem_map] at hx1 hx2
    obtain ⟨j1, _, hj1⟩ := hx1
    obtain ⟨j2, _, hj2⟩ := hx2
    rw [← hj2] at hj1
    exact absurd ((Prod.mk.injEq _ _ _ _).mp hj1).1 (Nat.ne_of_lt hlt)

lemma pairsList_valid {n : ℕ} : ∀ ij ∈ pairsList n,
    ij.1 < n ∧ ij.2 < n ∧ ij.1 ≠ ij.2 := by
  intro ij hij
  obtain ⟨h1, h2⟩ := mem_pairsList.mp hij
  exact ⟨lt_trans h1 h2, h2, Nat.ne_of_lt h1⟩

lemma contrib_zero_dt (m : List (List ℝ)) (rmin rmax : ℝ) (ps : List Particle)
    (k : ℕ) (ij : ℕ × ℕ) : contrib m rmin rmax 0 ps k ij = 0 := by
  cases hA : ps[ij.1]? with
  | none => simp [contrib, hA]
  | some a =>
    cases hB : ps[ij.2]? with
    | none => simp [contrib, hA, hB]
    | some b =>
      cases hkk : pairKick m rmin rmax 0 a b with
      | none => simp [contrib, hA, hB, hkk]
      | some kk =>
        have hz := pairKick_zero_dt hkk
        simp [contrib, hA, hB, hkk, hz]

/-- Characterization of the whole velocity pass over a well-formed state:
it succeeds, preserves the particle count, and gives every particle `k`
the velocity `v₀ + Σ over all pairs of that pair's contribution to k`,
with every contribution computed from the initial snapshot. -/
lemma update_velocity_char (s : SimState) (dt : ℝ) (h : wellFormed s) :
    ∃ ps', update_velocity dt s = some { s with particles := ps' } ∧
      ps'.length = s.particles.length ∧
      ∀ k : ℕ, ps'[k]? = s.particles[k]?.map fun p =>
        { p with velocity := p.velocity +
            ((pairsList s.particles.length).map
              (contrib s.matrix s.rmin s.rmax dt s.particles k)).sum } := by
  obtain ⟨hsq, hcol, _, _⟩ := h
  obtain ⟨ps', hfold, hlen, hchar⟩ :=
    foldlM_pairStep_char s.matrix s.rmin s.rmax dt hsq
      (pairsList s.particles.length) s.particles hcol pairsList_valid
  refine ⟨ps', ?_, hlen, hchar⟩
  unfold update_velocity
  rw [hfold, Option.map_some']

lemma update_position_getElem (dt : ℝ) (ps : List Particle) (k : ℕ) :
    (update_position dt ps)[k]? = ps[k]?.map fun p =>
      { p with position := (wrap (p.position.1 + dt * p.velocity.1),
                            wrap (p.position.2 + dt * p.velocity.2)) } := by
  unfold update_position
  rw [List.getElem?_map]

lemma probe1_wellFormed : wellFormed probe1 := by
  refine ⟨?_, ?_, by norm_num [probe1], by norm_num [probe1]⟩
  · intro row hrow
    simp only [probe1, List.mem_singleton] at hrow
    rw [hrow]
    rfl
  · intro p hp
    simp only [probe1, List.mem_singleton] at hp
    rw [hp]
    exact Nat.zero_lt_one

lemma probe2_wellFormed : wellFormed probe2 := by
  refine ⟨?_, ?_, by norm_num [probe2], by norm_num [probe2]⟩
  · intro row hrow
    simp only [probe2, List.mem_singleton] at hrow
    rw [hrow]
    rfl
  · intro p hp
    simp only [probe2, List.mem_cons, List.not_mem_nil, or_false] at hp
    rcases hp with hp | hp <;> rw [hp] <;> exact Nat.zero_lt_one

/-- C3, counterexample: the claim `wrap x ∈ [-1, 1)` for all finite `x`
fails at `x = -1`: rounding halves away from zero gives
`wrap (-1) = -1 - 2 * round (-1/2) = 1`, and `1` is not in `[-1, 1)`. -/
theorem wrap_neg_one_escapes_Ico :
    wrap (-1 : ℝ) = 1 ∧ (1 : ℝ) ∉ Set.Ico (-1 : ℝ) 1 := by
  refine ⟨wrap_neg_one, ?_⟩
  simp [Set.mem_Ico]

/-- C3, amended: for every finite scalar `x`, `wrap x = x - 2 * round (x/2)`
lies in the closed interval `[-1, 1]` (the value `1` is attained, at the
negative odd integers, so the interval cannot be taken half-open). -/
theorem wrap_mem_closed_interval (x : ℝ) : wrap x ∈ Set.Icc (-1 : ℝ) 1 :=
  wrap_mem_Icc x

/-- C4, counterexample: `wrap` is not idempotent: `wrap 1 = -1` but
`wrap (wrap 1) = wrap (-1) = 1 ≠ -1`. -/
theorem wrap_not_idempotent_at_one :
    wrap (1 : ℝ) = -1 ∧ wrap (wrap (1 : ℝ)) = 1 ∧
      wrap (wrap (1 : ℝ)) ≠ wrap (1 : ℝ) := by
  have h1 : wrap (1 : ℝ) = -1 := wrap_one
  have h2 : wrap (wrap (1 : ℝ)) = 1 := by rw [h1]; exact wrap_neg_one
  refine ⟨h1, h2, ?_⟩
  rw [h2, h1]
  norm_num

/-- C4, amended: `wrap (wrap x) = wrap x` holds for every `x` that is not
an odd integer (at odd integers `wrap x` is `1` or `-1` and `wrap` swaps
those two values, so idempotence fails exactly there). -/
theorem wrap_idempotent_of_not_odd (x : ℝ) (h : ∀ k : ℤ, x ≠ 2 * k + 1) :
    wrap (wrap x) = wrap x :=
  wrap_eq_self_of_mem_Ioo (wrap_mem_Ioo_of_not_odd h)

/-- Witness for the amended C4 at `x = 1/2`, which is not an odd integer. -/
theorem wrap_idempotent_of_not_odd_witness :
    (∀ k : ℤ, (1 / 2 : ℝ) ≠ 2 * k + 1) ∧
      wrap (wrap (1 / 2 : ℝ)) = wrap (1 / 2 : ℝ) := by
  have h : ∀ k : ℤ, (1 / 2 : ℝ) ≠ 2 * k + 1 := by
    intro k hk
    have h2 : ((4 * k + 2 : ℤ) : ℝ) = 1 := by push_cast; linarith
    have h3 : (4 * k + 2 : ℤ) = 1 := by exact_mod_cast h2
    omega
  exact ⟨h, wrap_idempotent_of_not_odd (1 / 2 : ℝ) h⟩

/-- C5: `toroidal_difference base tip` is `tip - base` componentwise,
except that `2.0` is subtracted from every component whose absolute value
exceeds `1.0` — unconditionally, also when the component is negative:
a component of `-1.5` becomes `-3.5`. -/
theorem toroidal_difference_componentwise :
    (∀ base tip : Vec2,
      (1 < |tip.1 - base.1| →
        (toroidal_difference base tip).1 = tip.1 - base.1 - 2) ∧
      (¬ 1 < |tip.1 - base.1| →
        (toroidal_difference base tip).1 = tip.1 - base.1) ∧
      (1 < |tip.2 - base.2| →
        (toroidal_difference base tip).2 = tip.2 - base.2 - 2) ∧
      (¬ 1 < |tip.2 - base.2| →
        (toroidal_difference base tip).2 = tip.2 - base.2)) ∧
    toroidal_difference ((0 : ℝ), (0 : ℝ)) ((-(3 / 2) : ℝ), (0 : ℝ)) =
      ((-(7 / 2) : ℝ), (0 : ℝ)) := by
  constructor
  · intro base tip
    refine ⟨?_, ?_, ?_, ?_⟩ <;> intro h <;> simp only [toroidal_difference] <;>
      split <;> first | rfl | exact absurd (by assumption) h
  · simp only [toroidal_difference, lt_abs]
    norm_num

/-- C1: the claim says construction must fail with a configuration error
for a non-square matrix, an out-of-range color class, or `rmin <= 0` or
`rmax <= rmin`.  The code performs no such check: `build` spawns the
particles and inserts the resources unconditionally and always succeeds.
Evaluated at `badPlugin` (non-square matrix `[[0], [0, 0]]`, a particle
with color class `7`, `rmin = rmax = 0`), the simulation state is
constructed, carrying the invalid configuration, and is not well formed. -/
theorem build_performs_no_validation :
    (ParticleLifePlugin.build badPlugin).particles = badPlugin.initial_particles ∧
    (ParticleLifePlugin.build badPlugin).matrix = [[0], [0, 0]] ∧
    (ParticleLifePlugin.build badPlugin).rmin = 0 ∧
    (ParticleLifePlugin.build badPlugin).rmax = 0 ∧
    ¬ wellFormed (ParticleLifePlugin.build badPlugin) := by
  refine ⟨rfl, rfl, rfl, rfl, ?_⟩
  rintro ⟨-, -, hr, -⟩
  exact lt_irrefl 0 hr

/-- C6: the three bands of `attraction_factor` under `0 < rmin < rmax`
and in-range color indices: at `d <= rmin` both components are
`d/rmin - 1` (matrix-independent, negative below `rmin`, zero at `rmin`);
for `rmin < d <= rmax` the result is `(s * m[a][b], s * m[b][a])` with
`s = |d - (rmin+rmax)/2|`, which is zero at the band midpoint and maximal
(`(rmax-rmin)/2`) at the two band edges; beyond `rmax` it is `(0, 0)`. -/
theorem attraction_factor_bands (d rmin rmax : ℝ) (m : List (List ℝ))
    (a b : ℕ) (hrmin : 0 < rmin) (hr : rmin < rmax) (hsq : isSquare m)
    (ha : a < m.length) (hb : b < m.length) :
    (d ≤ rmin → attraction_factor d a b m rmin rmax =
      some (d / rmin - 1, d / rmin - 1)) ∧
    (d < rmin → d / rmin - 1 < 0) ∧
    (d = rmin → d / rmin - 1 = 0) ∧
    (rmin < d → d ≤ rmax → attraction_factor d a b m rmin rmax =
      some (|d - (rmin + rmax) / 2| * mEntry m a b,
            |d - (rmin + rmax) / 2| * mEntry m b a)) ∧
    (rmax < d → attraction_factor d a b m rmin rmax = some (0, 0)) ∧
    |(rmin + rmax) / 2 - (rmin + rmax) / 2| = 0 ∧
    (∀ e : ℝ, rmin ≤ e → e ≤ rmax →
      |e - (rmin + rmax) / 2| ≤ (rmax - rmin) / 2) ∧
    |rmin - (rmin + rmax) / 2| = (rmax - rmin) / 2 ∧
    |rmax - (rmin + rmax) / 2| = (rmax - rmin) / 2 := by
  refine ⟨?_, ?_, ?_, ?_, ?_, ?_, ?_, ?_, ?_⟩
  · intro hd
    unfold attraction_factor
    rw [if_pos hd]
  · intro hd
    have := (div_lt_one hrmin).mpr hd
    linarith
  · intro hd
    rw [hd, div_self (ne_of_gt hrmin)]
    ring
  · intro h1 h2
    unfold attraction_factor
    rw [if_neg (not_le.mpr h1), if_pos h2, lookup2_eq_mEntry hsq ha hb,
      lookup2_eq_mEntry hsq hb ha]
  · intro h1
    unfold attraction_factor
    rw [if_neg (by linarith : ¬ d ≤ rmin), if_neg (not_le.mpr h1)]
  · rw [sub_self, abs_zero]
  · intro e h1 h2
    rw [abs_le]
    constructor <;> linarith
  · rw [abs_of_nonpos (by linarith)]
    ring
  · rw [abs_of_nonneg (by linarith)]
    ring

/-- Witness for C6 at the spec's own numbers: `rmin = 0.04`,
`rmax = 0.4`, `d = 0.3`, `matrix[0][0] = 0.3`: scalar `0.08` and force
`0.024 = 3/125` on both sides. -/
theorem attraction_factor_bands_witness :
    attraction_factor (3 / 10) 0 0 [[(3 : ℝ) / 10]] (1 / 25) (2 / 5) =
      some (3 / 125, 3 / 125) := by
  have hsq : isSquare [[(3 : ℝ) / 10]] := by
    intro row hrow
    rw [List.mem_singleton] at hrow
    rw [hrow]
    rfl
  have h := attraction_factor_bands (3 / 10) (1 / 25) (2 / 5)
    [[(3 : ℝ) / 10]] 0 0 (by norm_num) (by norm_num) hsq
    (by norm_num) (by norm_num)
  refine (h.2.2.2.1 (by norm_num) (by norm_num)).trans ?_
  have habs : |(3 : ℝ) / 10 - (1 / 25 + 2 / 5) / 2| = 2 / 25 := by
    rw [show ((3 : ℝ) / 10 - (1 / 25 + 2 / 5) / 2) = 2 / 25 by norm_num]
    exact abs_of_nonneg (by norm_num)
  rw [habs]
  have hent : mEntry [[(3 : ℝ) / 10]] 0 0 = 3 / 10 := rfl
  rw [hent]
  norm_num

/-- C7: the velocity pass visits every unordered pair of distinct
particles exactly once (`pairsList n` has no duplicates and contains
exactly the pairs `i < j < n`), succeeds on a well-formed state, and
gives each particle `k` the velocity `v₀ + Σ` over all pairs of that
pair's contribution: `+ dt*fAfromB*dir` when `k` is the pair's first
member and `- dt*fBfromA*dir` when it is the second, where `d` is the
toroidal distance clamped to at least `0.01`, the force pair comes from
`attraction_factor`, and `dir` is the normalized toroidal difference
with fallback `(1, 0)` — all computed from the initial position
snapshot (`contrib` reads only `s.particles`). -/
theorem velocity_pass_pairwise_updates (s : SimState) (dt : ℝ)
    (h : wellFormed s) :
    ((pairsList s.particles.length).Nodup ∧
      ∀ i j : ℕ, (i, j) ∈ pairsList s.particles.length ↔
        i < j ∧ j < s.particles.length) ∧
    ∃ ps', update_velocity dt s = some { s with particles := ps' } ∧
      ps'.length = s.particles.length ∧
      ∀ k : ℕ, ps'[k]? = s.particles[k]?.map fun p =>
        { p with velocity := p.velocity +
            ((pairsList s.particles.length).map
              (contrib s.matrix s.rmin s.rmax dt s.particles k)).sum } :=
  ⟨⟨pairsList_nodup _, fun _ _ => mem_pairsList⟩, update_velocity_char s dt h⟩

/-- Witness for C7 on the concrete two-particle state `probe2`. -/
theorem velocity_pass_pairwise_updates_witness :
    wellFormed probe2 ∧
    (((pairsList probe2.particles.length).Nodup ∧
      ∀ i j : ℕ, (i, j) ∈ pairsList probe2.particles.length ↔
        i < j ∧ j < probe2.particles.length) ∧
    ∃ ps', update_velocity 1 probe2 = some { probe2 with particles := ps' } ∧
      ps'.length = probe2.particles.length ∧
      ∀ k : ℕ, ps'[k]? = probe2.particles[k]?.map fun p =>
        { p with velocity := p.velocity +
            ((pairsList probe2.particles.length).map
              (contrib probe2.matrix probe2.rmin probe2.rmax 1
                probe2.particles k)).sum }) :=
  ⟨probe2_wellFormed, velocity_pass_pairwise_updates probe2 1 probe2_wellFormed⟩

/-- C8: the velocity pass never modifies any particle's position — after
any number of iterations of the pair loop (any prefix of the pair list),
the positions are exactly those of the initial snapshot, so no velocity
update reads a position perturbed by the same pass. -/
theorem velocity_pass_reads_position_snapshot (s : SimState) (dt : ℝ)
    (h : wellFormed s) :
    ∀ k : ℕ, ∃ ps', List.foldlM (pairStep s.matrix s.rmin s.rmax dt)
        s.particles ((pairsList s.particles.length).take k) = some ps' ∧
      ps'.map Particle.position = s.particles.map Particle.position := by
  intro k
  obtain ⟨hsq, hcol, _, _⟩ := h
  have hvalid : ∀ ij ∈ (pairsList s.particles.length).take k,
      ij.1 < s.particles.length ∧ ij.2 < s.particles.length ∧
        ij.1 ≠ ij.2 := by
    intro ij hij
    exact pairsList_valid ij (List.take_subset k _ hij)
  obtain ⟨ps', hfold, hlen, hchar⟩ :=
    foldlM_pairStep_char s.matrix s.rmin s.rmax dt hsq
      ((pairsList s.particles.length).take k) s.particles hcol hvalid
  refine ⟨ps', hfold, ?_⟩
  apply List.ext_getElem?
  intro n
  rw [List.getElem?_map, List.getElem?_map, hchar n]
  cases s.particles[n]? with
  | none => rfl
  | some p => rfl

/-- Witness for C8 on the concrete two-particle state `probe2`, after the
first iteration of the pair loop. -/
theorem velocity_pass_reads_position_snapshot_witness :
    wellFormed probe2 ∧
    ∃ ps', List.foldlM (pairStep probe2.matrix probe2.rmin probe2.rmax 1)
        probe2.particles ((pairsList probe2.particles.length).take 1) =
          some ps' ∧
      ps'.map Particle.position = probe2.particles.map Particle.position :=
  ⟨probe2_wellFormed,
    velocity_pass_reads_position_snapshot probe2 1 probe2_wellFormed 1⟩

/-- C9: over a well-formed state every tick-time operation is total: the
velocity pass and the full advance step return a result (no panic), and
the attraction model is defined for every distance and every in-range
pair of color indices — in particular the two matrix lookups of the
mid-band branch are in bounds. -/
theorem tick_operations_total (s : SimState) (dt : ℝ) (h : wellFormed s) :
    (update_velocity dt s).isSome ∧ (advance dt s).isSome ∧
      ∀ (d : ℝ) (ca cb : ℕ), ca < s.matrix.length → cb < s.matrix.length →
        (attraction_factor d ca cb s.matrix s.rmin s.rmax).isSome := by
  obtain ⟨ps', huv, -, -⟩ := update_velocity_char s dt h
  refine ⟨by rw [huv]; rfl, ?_, ?_⟩
  · unfold advance
    rw [huv]
    rfl
  · intro d ca cb hca hcb
    exact attraction_factor_isSome h.1 hca hcb d s.rmin s.rmax

/-- Witness for C9 on the concrete two-particle state `probe2`. -/
theorem tick_operations_total_witness :
    wellFormed probe2 ∧
    ((update_velocity 1 probe2).isSome ∧ (advance 1 probe2).isSome ∧
      ∀ (d : ℝ) (ca cb : ℕ), ca < probe2.matrix.length →
        cb < probe2.matrix.length →
        (attraction_factor d ca cb probe2.matrix probe2.rmin
          probe2.rmax).isSome) :=
  ⟨probe2_wellFormed, tick_operations_total probe2 1 probe2_wellFormed⟩

/-- C2, counterexample: the claim that positions end in the half-open box
`[-1, 1) × [-1, 1)` fails.  `probe1` is well formed (so reachable in zero
steps from a well-formed initial state), `dt = 1` is non-negative, yet
after one full advance step the particle's position is `(1, 0)`, and `1`
is not in `[-1, 1)`. -/
theorem advance_escapes_half_open_box :
    wellFormed probe1 ∧ (0 : ℝ) ≤ 1 ∧
    (advance 1 probe1).map (fun s => s.particles.map Particle.position) =
      some [((1 : ℝ), (0 : ℝ))] ∧
    (1 : ℝ) ∉ Set.Ico (-1 : ℝ) 1 := by
  refine ⟨probe1_wellFormed, by norm_num, ?_, by norm_num [Set.mem_Ico]⟩
  have h1 : pairsList probe1.particles.length = [] := rfl
  have h3 : update_velocity 1 probe1 = some probe1 := by
    unfold update_velocity
    rw [h1, List.foldlM_nil]
    rfl
  have h4 : advance 1 probe1 =
      some { probe1 with particles := update_position 1 probe1.particles } := by
    unfold advance
    rw [h3, Option.map_some']
  rw [h4, Option.map_some']
  simp only [probe1, update_position, List.map_cons, List.map_nil]
  rw [show ((0 : ℝ) + 1 * (-1)) = -1 by norm_num,
    show ((0 : ℝ) + 1 * 0) = 0 by norm_num, wrap_neg_one, wrap_zero]

/-- C2, amended: for every well-formed state and `dt ≥ 0`, one full
advance step succeeds and leaves every particle's position in the closed
box `[-1, 1] × [-1, 1]` (the endpoint `1` is attainable, so the box
cannot be taken half-open). -/
theorem advance_positions_in_closed_box (s : SimState) (dt : ℝ)
    (h : wellFormed s) (_hdt : 0 ≤ dt) :
    ∃ s', advance dt s = some s' ∧ ∀ p ∈ s'.particles,
      p.position.1 ∈ Set.Icc (-1 : ℝ) 1 ∧
      p.position.2 ∈ Set.Icc (-1 : ℝ) 1 := by
  obtain ⟨ps', huv, -, -⟩ := update_velocity_char s dt h
  refine ⟨_, by unfold advance; rw [huv, Option.map_some'], ?_⟩
  intro p hp
  simp only [update_position, List.mem_map] at hp
  obtain ⟨q, -, hq⟩ := hp
  rw [← hq]
  exact ⟨wrap_mem_Icc _, wrap_mem_Icc _⟩

/-- Witness for the amended C2 on the concrete state `probe1`. -/
theorem advance_positions_in_closed_box_witness :
    wellFormed probe1 ∧ (0 : ℝ) ≤ 1 ∧
    ∃ s', advance 1 probe1 = some s' ∧ ∀ p ∈ s'.particles,
      p.position.1 ∈ Set.Icc (-1 : ℝ) 1 ∧
      p.position.2 ∈ Set.Icc (-1 : ℝ) 1 :=
  ⟨probe1_wellFormed, by norm_num,
    advance_positions_in_closed_box probe1 1 probe1_wellFormed (by norm_num)⟩

/-- C10: advancing a well-formed state with `dt = 0` leaves every
particle's velocity unchanged while its position is still replaced by the
wrapped values `(wrap x, wrap y)` — the re-wrap happens unconditionally
every tick, even when no time passes. -/
theorem advance_zero_dt_wraps_only (s : SimState) (h : wellFormed s) :
    ∃ s', advance 0 s = some s' ∧
      s'.particles.length = s.particles.length ∧
      ∀ k : ℕ, s'.particles[k]? = s.particles[k]?.map fun p =>
        { p with position := (wrap p.position.1, wrap p.position.2) } := by
  obtain ⟨ps', huv, hlen, hchar⟩ := update_velocity_char s 0 h
  have hps' : ∀ k : ℕ, ps'[k]? = s.particles[k]? := by
    intro k
    rw [hchar k]
    have hzero : ((pairsList s.particles.length).map
        (contrib s.matrix s.rmin s.rmax 0 s.particles k)).sum = 0 := by
      apply List.sum_eq_zero
      intro x hx
      rw [List.mem_map] at hx
      obtain ⟨ij, -, hij⟩ := hx
      rw [← hij]
      exact contrib_zero_dt _ _ _ _ _ _
    rw [hzero]
    cases s.particles[k]? with
    | none => rfl
    | some p => simp
  refine ⟨_, by unfold advance; rw [huv, Option.map_some'], ?_, ?_⟩
  · show (update_position 0 ps').length = s.particles.length
    rw [update_position, List.length_map, hlen]
  · intro k
    show (update_position 0 ps')[k]? = _
    rw [update_position_getElem, hps' k]
    cases s.particles[k]? with
    | none => rfl
    | some p => simp

/-- Witness for C10 on the concrete state `probe1`. -/
theorem advance_zero_dt_wraps_only_witness :
    wellFormed probe1 ∧
    ∃ s', advance 0 probe1 = some s' ∧
      s'.particles.length = probe1.particles.length ∧
      ∀ k : ℕ, s'.particles[k]? = probe1.particles[k]?.map fun p =>
        { p with position := (wrap p.position.1, wrap p.position.2) } :=
  ⟨probe1_wellFormed, advance_zero_dt_wraps_only probe1 probe1_wellFormed⟩

end ParticleLife
